import Mathlib

/-!
# Verification of the libdogleg trust-region dogleg solver specification

The repository ships only the public header `src/dogleg.h`; the behaviour of
the solver (step computation, trust-region controller, regularization
ratchet, convergence tests) is therefore modelled from the natural-language
specification.  Vectors of doubles are modelled as functions `Fin n → ℝ`,
the Jacobian as a Mathlib matrix, and the black-box linear-algebra backend
(explicitly out of scope in the spec) as a parameter structure.
-/

namespace Dogleg

/-- Euclidean dot product of two vectors. -/
def dot {n : ℕ} (v w : Fin n → ℝ) : ℝ := ∑ i, v i * w i

/-- Squared Euclidean norm, the `_lensq` quantities of the header. -/
def norm2 {n : ℕ} (v : Fin n → ℝ) : ℝ := dot v v

/-- Euclidean norm. -/
noncomputable def nrm {n : ℕ} (v : Fin n → ℝ) : ℝ := Real.sqrt (norm2 v)

theorem dot_comm {n : ℕ} (v w : Fin n → ℝ) : dot v w = dot w v := by
  unfold dot; exact Finset.sum_congr rfl fun i _ => mul_comm _ _

theorem norm2_nonneg {n : ℕ} (v : Fin n → ℝ) : 0 ≤ norm2 v := by
  unfold norm2 dot
  exact Finset.sum_nonneg fun i _ => mul_self_nonneg _

theorem norm2_eq_zero_iff {n : ℕ} (v : Fin n → ℝ) : norm2 v = 0 ↔ v = 0 := by
  constructor
  · intro h
    funext i
    have h0 : ∀ j ∈ Finset.univ, (0:ℝ) ≤ v j * v j := fun j _ => mul_self_nonneg _
    have := (Finset.sum_eq_zero_iff_of_nonneg h0).mp h i (Finset.mem_univ i)
    exact mul_self_eq_zero.mp this
  · intro h; subst h; simp [norm2, dot]

theorem nrm_nonneg {n : ℕ} (v : Fin n → ℝ) : 0 ≤ nrm v := Real.sqrt_nonneg _

theorem nrm_sq {n : ℕ} (v : Fin n → ℝ) : nrm v ^ 2 = norm2 v :=
  Real.sq_sqrt (norm2_nonneg v)

theorem norm2_smul {n : ℕ} (t : ℝ) (v : Fin n → ℝ) :
    norm2 (t • v) = t ^ 2 * norm2 v := by
  unfold norm2 dot
  rw [Finset.mul_sum]
  refine Finset.sum_congr rfl fun i _ => ?_
  simp [Pi.smul_apply, smul_eq_mul]; ring

theorem nrm_smul {n : ℕ} (t : ℝ) (v : Fin n → ℝ) : nrm (t • v) = |t| * nrm v := by
  unfold nrm
  rw [norm2_smul, Real.sqrt_mul (sq_nonneg t), Real.sqrt_sq_eq_abs]

theorem norm2_add {n : ℕ} (v w : Fin n → ℝ) :
    norm2 (v + w) = norm2 v + 2 * dot v w + norm2 w := by
  unfold norm2 dot
  rw [Finset.mul_sum, ← Finset.sum_add_distrib, ← Finset.sum_add_distrib]
  refine Finset.sum_congr rfl fun i _ => ?_
  simp [Pi.add_apply]; ring

theorem norm2_neg {n : ℕ} (v : Fin n → ℝ) : norm2 (-v) = norm2 v := by
  unfold norm2 dot
  refine Finset.sum_congr rfl fun i _ => ?_
  simp

/-- Cauchy-Schwarz for `dot` and `nrm`. -/
theorem dot_le_nrm_mul_nrm {n : ℕ} (v w : Fin n → ℝ) : dot v w ≤ nrm v * nrm w := by
  have h := Finset.sum_mul_sq_le_sq_mul_sq Finset.univ v w
  have hv : ∑ i, v i ^ 2 = norm2 v := by
    unfold norm2 dot; exact Finset.sum_congr rfl fun i _ => sq (v i) ▸ (sq (v i)).symm
  have hw : ∑ i, w i ^ 2 = norm2 w := by
    unfold norm2 dot; exact Finset.sum_congr rfl fun i _ => sq (w i) ▸ (sq (w i)).symm
  have hd : (dot v w) ^ 2 ≤ norm2 v * norm2 w := by
    rw [← hv, ← hw]; exact h
  have habs : |dot v w| ≤ nrm v * nrm w := by
    have h1 : |dot v w| = Real.sqrt ((dot v w) ^ 2) := (Real.sqrt_sq_eq_abs _).symm
    rw [h1]
    calc Real.sqrt ((dot v w) ^ 2) ≤ Real.sqrt (norm2 v * norm2 w) := Real.sqrt_le_sqrt hd
    _ = nrm v * nrm w := by
        rw [Real.sqrt_mul (norm2_nonneg v)]; rfl
  exact le_trans (le_abs_self _) habs

/-- Modelled from the spec: the Cauchy point (§4.2).  The point along the
steepest-descent direction `-Jt·x` minimizing the 1-D quadratic model:
step length `‖Jt·x‖² / ‖J·(Jt·x)‖²`, direction `-(Jt·x)` scaled by that
length.  The implementation file `dogleg.c` is not in the repository; only
the header declares the cached `updateCauchy` field. -/
noncomputable def cauchyStep {nm ns : ℕ} (J : Matrix (Fin nm) (Fin ns) ℝ)
    (x : Fin nm → ℝ) : Fin ns → ℝ :=
  let g := Matrix.mulVec J.transpose x
  (-(norm2 g / norm2 (Matrix.mulVec J g))) • g

/-- Modelled from the spec: the interpolation coefficient `τ ∈ [0,1]` chosen
via the quadratic formula so that `‖Cauchy + τ·(GN − Cauchy)‖ = Δ` (§4.2). -/
noncomputable def doglegTau {n : ℕ} (delta : ℝ) (c g : Fin n → ℝ) : ℝ :=
  let d := g - c
  (-(dot c d) + Real.sqrt ((dot c d) ^ 2 - norm2 d * (norm2 c - delta ^ 2))) / norm2 d

/-- Modelled from the spec: the dogleg blend (§4.2).  If `‖GN‖ ≤ Δ` take the
Gauss-Newton step outright; else if `‖Cauchy‖ ≥ Δ` scale the Cauchy direction
to length exactly `Δ`; else take the point on the segment from the Cauchy
point to the Gauss-Newton point lying exactly on the trust-region boundary. -/
noncomputable def doglegStep {n : ℕ} (delta : ℝ) (c g : Fin n → ℝ) : Fin n → ℝ :=
  if nrm g ≤ delta then g
  else if delta ≤ nrm c then (delta / nrm c) • c
  else c + doglegTau delta c g • (g - c)

/-- Modelled from the spec: `didStepToEdgeOfTrustRegion` records whether the
produced step exactly touches the trust-region boundary, which happens
in exactly the two non-Gauss-Newton branches of the blend (§4.2). -/
def didStepToEdge {n : ℕ} (delta : ℝ) (g : Fin n → ℝ) : Prop := delta < nrm g

theorem dot_smul_right {n : ℕ} (t : ℝ) (v w : Fin n → ℝ) :
    dot v (t • w) = t * dot v w := by
  unfold dot
  rw [Finset.mul_sum]
  refine Finset.sum_congr rfl fun i _ => ?_
  simp [Pi.smul_apply, smul_eq_mul]; ring

theorem nrm_lt_iff {n : ℕ} (v : Fin n → ℝ) (t : ℝ) (ht : 0 ≤ t) :
    nrm v < t ↔ norm2 v < t ^ 2 := by
  unfold nrm
  exact Real.sqrt_lt (norm2_nonneg v) ht

theorem nrm_eq_of_norm2_eq_sq {n : ℕ} (v : Fin n → ℝ) (t : ℝ) (ht : 0 ≤ t)
    (h : norm2 v = t ^ 2) : nrm v = t := by
  unfold nrm
  rw [h, Real.sqrt_sq ht]

theorem dot_add_left {n : ℕ} (v w u : Fin n → ℝ) :
    dot (v + w) u = dot v u + dot w u := by
  unfold dot
  rw [← Finset.sum_add_distrib]
  refine Finset.sum_congr rfl fun i _ => ?_
  simp [Pi.add_apply]; ring

theorem dot_sub_right {n : ℕ} (v w u : Fin n → ℝ) :
    dot v (w - u) = dot v w - dot v u := by
  unfold dot
  rw [← Finset.sum_sub_distrib]
  refine Finset.sum_congr rfl fun i _ => ?_
  simp [Pi.sub_apply]; ring

theorem interp_norm2 {n : ℕ} (tau : ℝ) (c g : Fin n → ℝ) :
    norm2 (c + tau • (g - c)) =
      norm2 (g - c) * tau ^ 2 + 2 * dot c (g - c) * tau + norm2 c := by
  rw [norm2_add, dot_smul_right, norm2_smul]; ring

/-- Facts about the larger root of `a·t² + 2·b·t + k = 0` produced by the
quadratic formula, as used by the dogleg interpolation. -/
theorem quadRoot_facts (a b k t : ℝ) (ha : 0 < a) (hk : k < 0)
    (ht : t = (-b + Real.sqrt (b ^ 2 - a * k)) / a) :
    0 ≤ t ∧ a * t ^ 2 + 2 * b * t + k = 0 ∧
      (0 < a + b → 0 < a + 2 * b + k → t ≤ 1) := by
  have hdisc : 0 < b ^ 2 - a * k := by nlinarith [sq_nonneg b]
  have hs2 : Real.sqrt (b ^ 2 - a * k) ^ 2 = b ^ 2 - a * k := Real.sq_sqrt hdisc.le
  have hsb : |b| ≤ Real.sqrt (b ^ 2 - a * k) := by
    rw [← Real.sqrt_sq_eq_abs]
    exact Real.sqrt_le_sqrt (by nlinarith)
  have hble : b ≤ Real.sqrt (b ^ 2 - a * k) := le_trans (le_abs_self b) hsb
  have ht0 : 0 ≤ t := by
    rw [ht]
    exact div_nonneg (by linarith) ha.le
  have hat : a * t = -b + Real.sqrt (b ^ 2 - a * k) := by
    rw [ht, mul_div_cancel₀ _ (ne_of_gt ha)]
  have hquad : a * t ^ 2 + 2 * b * t + k = 0 := by
    have h1 : a * (a * t ^ 2 + 2 * b * t + k) = 0 := by
      have e1 : a * (a * t ^ 2 + 2 * b * t + k) =
          (a * t) ^ 2 + 2 * b * (a * t) + a * k := by ring
      rw [e1, hat]
      have e2 : (-b + Real.sqrt (b ^ 2 - a * k)) ^ 2 +
          2 * b * (-b + Real.sqrt (b ^ 2 - a * k)) + a * k =
          Real.sqrt (b ^ 2 - a * k) ^ 2 - b ^ 2 + a * k := by ring
      rw [e2, hs2]; ring
    exact (mul_eq_zero.mp h1).resolve_left (ne_of_gt ha)
  refine ⟨ht0, hquad, fun hab hq1 => ?_⟩
  have hs_le : Real.sqrt (b ^ 2 - a * k) ≤ a + b := by
    have hsq : b ^ 2 - a * k ≤ (a + b) ^ 2 := by nlinarith
    calc Real.sqrt (b ^ 2 - a * k) ≤ Real.sqrt ((a + b) ^ 2) := Real.sqrt_le_sqrt hsq
    _ = a + b := Real.sqrt_sq hab.le
  rw [ht, div_le_one ha]
  linarith

theorem doglegTau_eq {n : ℕ} (delta : ℝ) (c g : Fin n → ℝ) :
    doglegTau delta c g =
      (-(dot c (g - c)) +
        Real.sqrt ((dot c (g - c)) ^ 2 -
          norm2 (g - c) * (norm2 c - delta ^ 2))) / norm2 (g - c) := rfl

/-- In the interpolation regime (`‖Cauchy‖ < Δ < ‖GN‖`), the coefficient
`τ` lies in `[0,1]` and the blended point lies exactly on the boundary. -/
theorem tau_spec {n : ℕ} (delta : ℝ) (c g : Fin n → ℝ)
    (hc : nrm c < delta) (hg : delta < nrm g) :
    0 ≤ doglegTau delta c g ∧ doglegTau delta c g ≤ 1 ∧
      norm2 (c + doglegTau delta c g • (g - c)) = delta ^ 2 := by
  have hδ0 : 0 < delta := lt_of_le_of_lt (nrm_nonneg c) hc
  have hkey : norm2 c < delta ^ 2 := (nrm_lt_iff c delta hδ0.le).mp hc
  have hgd : delta ^ 2 < norm2 g := by
    have h1 : delta < Real.sqrt (norm2 g) := hg
    exact (Real.lt_sqrt hδ0.le).mp h1
  have hdne : g - c ≠ 0 := by
    intro h0
    have hgc : g = c := sub_eq_zero.mp h0
    rw [hgc] at hg
    exact lt_irrefl _ (lt_trans hc hg)
  have ha0 : 0 < norm2 (g - c) := by
    rcases lt_or_eq_of_le (norm2_nonneg (g - c)) with h | h
    · exact h
    · exact absurd ((norm2_eq_zero_iff (g - c)).mp h.symm) hdne
  have hkneg : norm2 c - delta ^ 2 < 0 := by linarith
  obtain ⟨h0, hq, hle⟩ := quadRoot_facts (norm2 (g - c)) (dot c (g - c))
    (norm2 c - delta ^ 2) (doglegTau delta c g) ha0 hkneg (doglegTau_eq delta c g)
  have hcdg : c + (g - c) = g := by abel
  have hexp : norm2 (g - c) + 2 * dot c (g - c) + norm2 c = norm2 g := by
    have h1 := norm2_add c (g - c)
    rw [hcdg] at h1
    linarith
  have hab : 0 < norm2 (g - c) + dot c (g - c) := by
    have h1 : dot (c + (g - c)) (g - c) = dot c (g - c) + dot (g - c) (g - c) :=
      dot_add_left c (g - c) (g - c)
    rw [hcdg] at h1
    have h2 : dot g (g - c) = dot g g - dot g c := dot_sub_right g g c
    have hcs : dot g c ≤ nrm g * nrm c := dot_le_nrm_mul_nrm g c
    have hg2 : nrm g ^ 2 = norm2 g := nrm_sq g
    have hgpos : 0 < nrm g := lt_trans hδ0 hg
    have hcnn : 0 ≤ nrm c := nrm_nonneg c
    have h3 : norm2 (g - c) + dot c (g - c) = norm2 g - dot g c := by
      have e1 : norm2 (g - c) = dot (g - c) (g - c) := rfl
      have e2 : norm2 g = dot g g := rfl
      rw [e1, e2]
      linarith [h1, h2]
    rw [h3]
    nlinarith [hg, hc]
  have hq1 : 0 < norm2 (g - c) + 2 * dot c (g - c) + (norm2 c - delta ^ 2) := by
    linarith
  refine ⟨h0, hle hab hq1, ?_⟩
  rw [interp_norm2]
  linarith [hq]

/-- The length of the blended dogleg step is `min Δ ‖GN‖` for every
nonnegative radius. -/
theorem nrm_doglegStep {n : ℕ} (delta : ℝ) (c g : Fin n → ℝ) (hδ : 0 ≤ delta) :
    nrm (doglegStep delta c g) = min delta (nrm g) := by
  unfold doglegStep
  split_ifs with h1 h2
  · exact (min_eq_right h1).symm
  · rw [min_eq_left (le_of_lt (not_le.mp h1))]
    rcases lt_or_eq_of_le (nrm_nonneg c) with hc | hc
    · rw [nrm_smul, abs_of_nonneg (div_nonneg hδ (nrm_nonneg c)),
        div_mul_cancel₀ _ (ne_of_gt hc)]
    · have hδ0 : delta = 0 := le_antisymm (hc ▸ h2) hδ
      subst hδ0
      rw [nrm_smul]
      simp [← hc]
  · rw [min_eq_left (le_of_lt (not_le.mp h1))]
    obtain ⟨_, _, hb⟩ := tau_spec delta c g (not_le.mp h2) (not_le.mp h1)
    exact nrm_eq_of_norm2_eq_sq _ delta hδ hb

/-- C1: the dogleg step computation selects its step by exactly the spec's
case analysis: full Gauss-Newton step when it fits, Cauchy direction rescaled
to length `Δ` when the Cauchy point is outside, and otherwise the boundary
point of the segment between them with `τ ∈ [0,1]` from the quadratic
formula. -/
theorem doglegStep_cases {n : ℕ} (delta : ℝ) (c g : Fin n → ℝ) (hδ : 0 < delta) :
    (nrm g ≤ delta → doglegStep delta c g = g) ∧
    (delta < nrm g → delta ≤ nrm c →
      doglegStep delta c g = (delta / nrm c) • c ∧
      nrm (doglegStep delta c g) = delta) ∧
    (delta < nrm g → nrm c < delta →
      doglegStep delta c g = c + doglegTau delta c g • (g - c) ∧
      0 ≤ doglegTau delta c g ∧ doglegTau delta c g ≤ 1 ∧
      nrm (doglegStep delta c g) = delta) := by
  refine ⟨fun h1 => ?_, fun h1 h2 => ⟨?_, ?_⟩, fun h1 h2 => ?_⟩
  · unfold doglegStep; rw [if_pos h1]
  · unfold doglegStep; rw [if_neg (not_le.mpr h1), if_pos h2]
  · rw [nrm_doglegStep delta c g hδ.le]
    exact min_eq_left h1.le
  · obtain ⟨ht0, ht1, hb⟩ := tau_spec delta c g h2 h1
    refine ⟨?_, ht0, ht1, ?_⟩
    · unfold doglegStep
      rw [if_neg (not_le.mpr h1), if_neg (not_le.mpr h2)]
    · rw [nrm_doglegStep delta c g hδ.le]
      exact min_eq_left h1.le

/-- C8 (amended): the blended step length is `min Δ ‖GN‖`, hence continuous
and monotonically non-decreasing in `Δ`; the step is the Gauss-Newton step
once `Δ ≥ ‖GN‖`, and it is the clipped Cauchy step once `Δ ≤ ‖Cauchy‖`
provided additionally `Δ < ‖GN‖` (the Gauss-Newton branch takes precedence
otherwise). -/
theorem doglegStep_length_profile {n : ℕ} (delta : ℝ) (c g : Fin n → ℝ)
    (hδ : 0 ≤ delta) :
    nrm (doglegStep delta c g) = min delta (nrm g) ∧
    MonotoneOn (fun t => nrm (doglegStep t c g)) (Set.Ici (0:ℝ)) ∧
    ContinuousOn (fun t => nrm (doglegStep t c g)) (Set.Ici (0:ℝ)) ∧
    (nrm g ≤ delta → doglegStep delta c g = g) ∧
    (delta ≤ nrm c → delta < nrm g → doglegStep delta c g = (delta / nrm c) • c) := by
  refine ⟨nrm_doglegStep delta c g hδ, ?_, ?_, fun h1 => ?_, fun h1 h2 => ?_⟩
  · intro a ha b hb hab
    simp only
    rw [nrm_doglegStep a c g ha, nrm_doglegStep b c g hb]
    exact min_le_min hab le_rfl
  · have hcont : ContinuousOn (fun t : ℝ => min t (nrm g)) (Set.Ici (0:ℝ)) :=
      (continuous_id.min continuous_const).continuousOn
    exact hcont.congr fun t ht => nrm_doglegStep t c g ht
  · unfold doglegStep; rw [if_pos h1]
  · unfold doglegStep; rw [if_neg (not_le.mpr h2), if_pos h1]

/-- C8 counterexample: with `‖GN‖ < Δ ≤ ‖Cauchy‖` the spec's own case order
hands back the Gauss-Newton step, so the claimed "clipped Cauchy step of
length exactly `Δ` whenever `Δ ≤ ‖Cauchy‖`" fails. -/
theorem doglegStep_clippedCauchy_fails :
    (2:ℝ) ≤ nrm (fun _ : Fin 1 => (5:ℝ)) ∧
    doglegStep 2 (fun _ : Fin 1 => (5:ℝ)) (fun _ : Fin 1 => (1:ℝ)) =
      (fun _ : Fin 1 => (1:ℝ)) ∧
    nrm (doglegStep 2 (fun _ : Fin 1 => (5:ℝ)) (fun _ : Fin 1 => (1:ℝ))) ≠ 2 := by
  have h5 : nrm (fun _ : Fin 1 => (5:ℝ)) = 5 := by
    unfold nrm norm2 dot
    rw [Fin.sum_univ_one]
    rw [show (5:ℝ) * 5 = 5 ^ 2 by norm_num, Real.sqrt_sq (by norm_num)]
  have h1 : nrm (fun _ : Fin 1 => (1:ℝ)) = 1 := by
    unfold nrm norm2 dot
    rw [Fin.sum_univ_one]
    norm_num
  have hstep : doglegStep 2 (fun _ : Fin 1 => (5:ℝ)) (fun _ : Fin 1 => (1:ℝ)) =
      (fun _ : Fin 1 => (1:ℝ)) := by
    unfold doglegStep
    rw [if_pos (by rw [h1]; norm_num)]
  refine ⟨by rw [h5]; norm_num, hstep, ?_⟩
  rw [hstep, h1]
  norm_num

/-- The gradient `Jt·x` cached by the operating point (half the objective
gradient, field `Jt_x` of `dogleg_operatingPoint_t`). -/
noncomputable def Jt_x {nm ns : ℕ} (J : Matrix (Fin nm) (Fin ns) ℝ)
    (x : Fin nm → ℝ) : Fin ns → ℝ :=
  Matrix.mulVec J.transpose x

/-- Modelled from the spec: the optimal step length along the steepest
descent ray, `‖Jt·x‖² / ‖J·(Jt·x)‖²` (§4.2). -/
noncomputable def cauchyStepLen {nm ns : ℕ} (J : Matrix (Fin nm) (Fin ns) ℝ)
    (x : Fin nm → ℝ) : ℝ :=
  norm2 (Jt_x J x) / norm2 (Matrix.mulVec J (Jt_x J x))

/-- The 1-D quadratic model of the objective along the steepest-descent ray
`s(t) = -t·(Jt·x)`: the squared linearized residual `‖x + J·s(t)‖²`. -/
noncomputable def cauchyModel {nm ns : ℕ} (J : Matrix (Fin nm) (Fin ns) ℝ)
    (x : Fin nm → ℝ) (t : ℝ) : ℝ :=
  norm2 (x + Matrix.mulVec J ((-t) • Jt_x J x))

theorem dot_mulVec_adjoint {nm ns : ℕ} (J : Matrix (Fin nm) (Fin ns) ℝ)
    (x : Fin nm → ℝ) (v : Fin ns → ℝ) :
    dot x (Matrix.mulVec J v) = dot (Matrix.mulVec J.transpose x) v := by
  have e1 : dot x (Matrix.mulVec J v) = Matrix.dotProduct x (Matrix.mulVec J v) := rfl
  have e2 : dot (Matrix.mulVec J.transpose x) v =
      Matrix.dotProduct (Matrix.mulVec J.transpose x) v := rfl
  rw [e1, e2, Matrix.dotProduct_mulVec, Matrix.mulVec_transpose]

theorem cauchyModel_eq {nm ns : ℕ} (J : Matrix (Fin nm) (Fin ns) ℝ)
    (x : Fin nm → ℝ) (t : ℝ) :
    cauchyModel J x t = norm2 x - 2 * t * norm2 (Jt_x J x) +
      t ^ 2 * norm2 (Matrix.mulVec J (Jt_x J x)) := by
  unfold cauchyModel
  rw [Matrix.mulVec_smul, norm2_add, dot_smul_right, norm2_smul]
  have hadj : dot x (Matrix.mulVec J (Jt_x J x)) = norm2 (Jt_x J x) := by
    rw [dot_mulVec_adjoint]
    rfl
  rw [hadj]
  ring

/-- C2: for a nonzero gradient the Cauchy step is `-(Jt·x)` scaled by
`‖Jt·x‖²/‖J·(Jt·x)‖²`, and that scale is the unconstrained minimizer of the
1-D quadratic model along the steepest-descent ray. -/
theorem cauchyStep_minimizes {nm ns : ℕ} (J : Matrix (Fin nm) (Fin ns) ℝ)
    (x : Fin nm → ℝ) (hg : Jt_x J x ≠ 0) :
    cauchyStep J x = (-(cauchyStepLen J x)) • Jt_x J x ∧
    ∀ t : ℝ, cauchyModel J x (cauchyStepLen J x) ≤ cauchyModel J x t := by
  constructor
  · rfl
  · intro t
    have hA : 0 < norm2 (Matrix.mulVec J (Jt_x J x)) := by
      rcases lt_or_eq_of_le (norm2_nonneg (Matrix.mulVec J (Jt_x J x))) with h | h
      · exact h
      · exfalso
        have hu : Matrix.mulVec J (Jt_x J x) = 0 := (norm2_eq_zero_iff _).mp h.symm
        have hB : norm2 (Jt_x J x) = dot x (Matrix.mulVec J (Jt_x J x)) := by
          rw [dot_mulVec_adjoint]; rfl
        rw [hu] at hB
        have hB0 : norm2 (Jt_x J x) = 0 := by
          rw [hB]; simp [dot]
        exact hg ((norm2_eq_zero_iff _).mp hB0)
    rw [cauchyModel_eq, cauchyModel_eq]
    set A := norm2 (Matrix.mulVec J (Jt_x J x)) with hAdef
    set B := norm2 (Jt_x J x) with hBdef
    have hlen : cauchyStepLen J x = B / A := rfl
    rw [hlen]
    have key : 0 ≤ t ^ 2 * A - 2 * t * B + B ^ 2 / A := by
      have h1 : t ^ 2 * A - 2 * t * B + B ^ 2 / A = (t * A - B) ^ 2 / A := by
        field_simp
        ring
      rw [h1]
      positivity
    have h3 : (B / A) ^ 2 * A = B ^ 2 / A := by
      field_simp
      ring
    have h4 : 2 * (B / A) * B = 2 * (B ^ 2 / A) := by ring
    nlinarith [key, h3, h4]

/-- Modelled from the spec: the process-wide solver tunables set through
`dogleg_setMaxIterations`, `dogleg_setTrustregionUpdateParameters`,
`dogleg_setInitialTrustregion` and `dogleg_setThresholds` (§6), together with
the bounded regularization retry budget of §4.1. -/
structure DoglegParameters where
  maxIterations : ℕ
  factorizationRetries : ℕ
  downFactor : ℝ
  downThreshold : ℝ
  upFactor : ℝ
  upThreshold : ℝ
  initialTrustregion : ℝ
  thresh_Jt_x : ℝ
  thresh_update : ℝ
  thresh_trustregion : ℝ

/-- Modelled from the spec: the linear-algebra backend adapter (§4.1), which
the spec treats as an out-of-scope black box.  `factorable JtJ lambda`
reports whether factorizing `JtJ + lambda·I` succeeds (positive-definite
detection); `solveGN JtJ lambda g` solves the Gauss-Newton equation
`(JtJ + lambda·I)·s = -g` against that factorization. -/
structure LinearBackend (ns : ℕ) where
  factorable : Matrix (Fin ns) (Fin ns) ℝ → ℝ → Bool
  solveGN : Matrix (Fin ns) (Fin ns) ℝ → ℝ → (Fin ns → ℝ) → (Fin ns → ℝ)

/-- The user callback of `dogleg_callback_t`: residuals and Jacobian as
deterministic functions of the state (the C callback returns `void`, so it
has no failure channel). -/
structure DoglegProblem (ns nm : ℕ) where
  f : (Fin ns → ℝ) → (Fin nm → ℝ)
  Jf : (Fin ns → ℝ) → Matrix (Fin nm) (Fin ns) ℝ

/-- Modelled from the spec: the regularization escalation applied when a
factorization attempt reveals a non-positive-definite matrix.  The spec
leaves the exact policy open (§9, "e.g., multiplicative by 10 each retry");
we seed a zero `lambda` with 1 and multiply by 10 thereafter. -/
noncomputable def escalateLambda (l : ℝ) : ℝ := if l = 0 then 1 else 10 * l

/-- Modelled from the spec: the bounded factorization retry loop of §4.1.
On failure `lambda` is ratcheted upward and the factorization retried; when
the budget is exhausted the result is `none` (fatal).  On success it returns
the Gauss-Newton step and the `lambda` in effect. -/
noncomputable def computeGN {ns : ℕ} (be : LinearBackend ns)
    (JtJ : Matrix (Fin ns) (Fin ns) ℝ) (g : Fin ns → ℝ) :
    ℕ → ℝ → Option ((Fin ns → ℝ) × ℝ)
  | 0, _ => none
  | k + 1, l =>
    if be.factorable JtJ l then some (be.solveGN JtJ l g, l)
    else computeGN be JtJ g k (escalateLambda l)

/-- The cross-iteration controller state: the accepted point `beforeStep`,
the regularization constant and the trust-region radius. -/
structure IterState (ns : ℕ) where
  p : Fin ns → ℝ
  lambda : ℝ
  trustregion : ℝ

/-- The gradient `Jt·x` at a state vector. -/
noncomputable def gradOf {ns nm : ℕ} (prob : DoglegProblem ns nm)
    (p : Fin ns → ℝ) : Fin ns → ℝ :=
  Jt_x (prob.Jf p) (prob.f p)

/-- The normal-equations matrix `JtJ` at a state vector. -/
noncomputable def JtJOf {ns nm : ℕ} (prob : DoglegProblem ns nm)
    (p : Fin ns → ℝ) : Matrix (Fin ns) (Fin ns) ℝ :=
  (prob.Jf p).transpose * prob.Jf p

/-- The Cauchy step at a state vector. -/
noncomputable def cauchyOf {ns nm : ℕ} (prob : DoglegProblem ns nm)
    (p : Fin ns → ℝ) : Fin ns → ℝ :=
  cauchyStep (prob.Jf p) (prob.f p)

/-- The Gauss-Newton computation at a controller state: the retry loop run
with the state's `lambda` and the configured retry budget. -/
noncomputable def gnResult {ns nm : ℕ} (P : DoglegParameters)
    (be : LinearBackend ns) (prob : DoglegProblem ns nm) (s : IterState ns) :
    Option ((Fin ns → ℝ) × ℝ) :=
  computeGN be (JtJOf prob s.p) (gradOf prob s.p) P.factorizationRetries s.lambda

/-- Modelled from the spec: the predicted cost reduction of the local
quadratic (linearized least-squares) model for a candidate step (§4.3). -/
noncomputable def predictedReduction {ns nm : ℕ} (prob : DoglegProblem ns nm)
    (p step : Fin ns → ℝ) : ℝ :=
  norm2 (prob.f p) - norm2 (prob.f p + Matrix.mulVec (prob.Jf p) step)

/-- Modelled from the spec: the actual-vs-predicted cost reduction ratio
`ρ` (§4.3). -/
noncomputable def rhoOf {ns nm : ℕ} (prob : DoglegProblem ns nm)
    (p step : Fin ns → ℝ) : ℝ :=
  (norm2 (prob.f p) - norm2 (prob.f (p + step))) / predictedReduction prob p step

/-- Modelled from the spec: the gradient convergence criterion, enabled by a
positive threshold: every component of `Jt_x` below the threshold in
magnitude (§4.3). -/
def gradientConverged {ns : ℕ} (th : ℝ) (g : Fin ns → ℝ) : Prop :=
  0 < th ∧ ∀ i, |g i| < th

/-- Modelled from the spec: the update-size convergence criterion, enabled
by a positive threshold: every component of the most recent accepted update
below the threshold in magnitude (§4.3). -/
def updateConverged {ns : ℕ} (th : ℝ) (u : Fin ns → ℝ) : Prop :=
  0 < th ∧ ∀ i, |u i| < th

/-- Modelled from the spec: the trust-region convergence criterion, enabled
by a positive threshold: radius below the threshold (§4.3). -/
def trustregionConverged (th delta : ℝ) : Prop :=
  0 < th ∧ delta < th

noncomputable instance {ns : ℕ} (th : ℝ) (g : Fin ns → ℝ) :
    Decidable (gradientConverged th g) := by
  unfold gradientConverged; infer_instance

noncomputable instance {ns : ℕ} (th : ℝ) (u : Fin ns → ℝ) :
    Decidable (updateConverged th u) := by
  unfold updateConverged; infer_instance

noncomputable instance (th delta : ℝ) : Decidable (trustregionConverged th delta) := by
  unfold trustregionConverged; infer_instance

/-- The disjunction of the three termination criteria, evaluated on an
accepted operating point, its accepted update and the current radius. -/
def solverConverged {ns nm : ℕ} (P : DoglegParameters)
    (prob : DoglegProblem ns nm) (p step : Fin ns → ℝ) (delta : ℝ) : Prop :=
  gradientConverged P.thresh_Jt_x (gradOf prob p) ∨
    updateConverged P.thresh_update step ∨
    trustregionConverged P.thresh_trustregion delta

noncomputable instance {ns nm : ℕ} (P : DoglegParameters)
    (prob : DoglegProblem ns nm) (p step : Fin ns → ℝ) (delta : ℝ) :
    Decidable (solverConverged P prob p step delta) := by
  unfold solverConverged; infer_instance

/-- The solver's failure modes: the user callback has no failure channel
(it returns `void`), so the only failure is the fatal-factorization
condition of §4.2 (regularization retry budget exhausted). -/
inductive DoglegError where
  | fatalFactorization

/-- Modelled from the spec: one controller iteration (§4.3 steps 1-6 and
the termination checks).  Returns the new state, whether the candidate was
accepted, and whether a termination criterion fired on the accepted point. -/
noncomputable def runIteration {ns nm : ℕ} (P : DoglegParameters)
    (be : LinearBackend ns) (prob : DoglegProblem ns nm) (s : IterState ns) :
    Except DoglegError (IterState ns × Bool × Bool) :=
  match gnResult P be prob s with
  | none => Except.error DoglegError.fatalFactorization
  | some (gn, lam) =>
    let step := doglegStep s.trustregion (cauchyOf prob s.p) gn
    if rhoOf prob s.p step < P.downThreshold then
      Except.ok (⟨s.p, lam, P.downFactor * s.trustregion⟩, false, false)
    else if P.upThreshold < rhoOf prob s.p step ∧ s.trustregion < nrm gn then
      Except.ok (⟨s.p + step, lam, P.upFactor * s.trustregion⟩, true,
        decide (solverConverged P prob (s.p + step) step (P.upFactor * s.trustregion)))
    else
      Except.ok (⟨s.p + step, lam, s.trustregion⟩, true,
        decide (solverConverged P prob (s.p + step) step s.trustregion))

/-- Modelled from the spec: the fuelled controller loop (§4.3), stopping on
convergence, on the iteration cap, or on a fatal factorization.  Returns the
final state, whether a convergence criterion fired, and how many candidate
steps were accepted. -/
noncomputable def runLoop {ns nm : ℕ} (P : DoglegParameters)
    (be : LinearBackend ns) (prob : DoglegProblem ns nm) :
    ℕ → IterState ns → Except DoglegError (IterState ns × Bool × ℕ)
  | 0, s => Except.ok (s, false, 0)
  | k + 1, s =>
    match runIteration P be prob s with
    | Except.error e => Except.error e
    | Except.ok (s1, accepted, conv) =>
      if conv then Except.ok (s1, true, if accepted then 1 else 0)
      else
        match runLoop P be prob k s1 with
        | Except.error e => Except.error e
        | Except.ok (s2, c2, cnt) =>
          Except.ok (s2, c2, cnt + if accepted then 1 else 0)

/-- The controller state at the start of a solve: the caller's initial
estimate, `lambda = 0`, and the configured initial trust region. -/
def initState {ns : ℕ} (P : DoglegParameters) (p0 : Fin ns → ℝ) : IterState ns :=
  ⟨p0, 0, P.initialTrustregion⟩

/-- Modelled from the spec: the `dogleg_optimize` entry point.  Runs the
controller from the caller's estimate and returns the final objective value
`norm2_x` at the best accepted point together with the final state vector
(the model of the in-place write into the caller's `p` buffer) and the
convergence flag. -/
noncomputable def dogleg_optimize {ns nm : ℕ} (P : DoglegParameters)
    (be : LinearBackend ns) (prob : DoglegProblem ns nm) (p0 : Fin ns → ℝ) :
    Except DoglegError (ℝ × (Fin ns → ℝ) × Bool) :=
  match runLoop P be prob P.maxIterations (initState P p0) with
  | Except.error e => Except.error e
  | Except.ok (s, conv, _) => Except.ok (norm2 (prob.f s.p), s.p, conv)

/-- The operating point record of `dogleg.h` (`dogleg_operatingPoint_t`),
with its cached update vectors, their squared lengths and validity flags. -/
structure OperatingPoint (ns nm : ℕ) where
  p : Fin ns → ℝ
  x : Fin nm → ℝ
  norm2_x : ℝ
  J : Matrix (Fin nm) (Fin ns) ℝ
  Jt_x : Fin ns → ℝ
  updateCauchy : Fin ns → ℝ
  updateGN : Fin ns → ℝ
  updateCauchy_lensq : ℝ
  updateGN_lensq : ℝ
  updateCauchy_valid : Bool
  updateGN_valid : Bool

/-- Modelled from the spec: evaluation of the callback at a state vector
produces a fresh operating point; the Jacobian has just changed, so both
cache validity flags start cleared (§3, §9). -/
noncomputable def makeOperatingPoint {ns nm : ℕ} (prob : DoglegProblem ns nm)
    (p : Fin ns → ℝ) : OperatingPoint ns nm :=
  ⟨p, prob.f p, norm2 (prob.f p), prob.Jf p,
    Jt_x (prob.Jf p) (prob.f p), 0, 0, 0, 0, false, false⟩

/-- Modelled from the spec: lazily fill the cached Cauchy update vector of
an operating point, recomputing only when the validity flag is cleared. -/
noncomputable def fillCauchy {ns nm : ℕ} (pt : OperatingPoint ns nm) :
    OperatingPoint ns nm :=
  if pt.updateCauchy_valid then pt
  else
    { pt with
      updateCauchy := cauchyStep pt.J pt.x
      updateCauchy_lensq := norm2 (cauchyStep pt.J pt.x)
      updateCauchy_valid := true }

/-- Modelled from the spec: lazily fill the cached Gauss-Newton update
vector of an operating point through the backend's factorization-then-solve,
recomputing only when the validity flag is cleared. -/
noncomputable def fillGN {ns nm : ℕ} (be : LinearBackend ns) (lam : ℝ)
    (pt : OperatingPoint ns nm) : OperatingPoint ns nm :=
  if pt.updateGN_valid then pt
  else
    { pt with
      updateGN := be.solveGN (pt.J.transpose * pt.J) lam pt.Jt_x
      updateGN_lensq := norm2 (be.solveGN (pt.J.transpose * pt.J) lam pt.Jt_x)
      updateGN_valid := true }

/-- The cache coherence invariant of the operating point: a set validity
flag means the cached vector is the step derived from the point's current
Jacobian and gradient, and the `_lensq` field is its squared norm. -/
def cacheInvariant {ns nm : ℕ} (be : LinearBackend ns) (lam : ℝ)
    (pt : OperatingPoint ns nm) : Prop :=
  (pt.updateCauchy_valid = true →
    pt.updateCauchy = cauchyStep pt.J pt.x ∧
    pt.updateCauchy_lensq = norm2 pt.updateCauchy) ∧
  (pt.updateGN_valid = true →
    pt.updateGN = be.solveGN (pt.J.transpose * pt.J) lam pt.Jt_x ∧
    pt.updateGN_lensq = norm2 pt.updateGN)

/-- `runIteration` unfolded once the Gauss-Newton retry loop has succeeded. -/
theorem runIteration_of_gn {ns nm : ℕ} (P : DoglegParameters)
    (be : LinearBackend ns) (prob : DoglegProblem ns nm) (s : IterState ns)
    (gn : Fin ns → ℝ) (lam : ℝ)
    (hgn : gnResult P be prob s = some (gn, lam)) :
    runIteration P be prob s =
      (if rhoOf prob s.p (doglegStep s.trustregion (cauchyOf prob s.p) gn) <
          P.downThreshold then
        Except.ok (⟨s.p, lam, P.downFactor * s.trustregion⟩, false, false)
      else if P.upThreshold <
            rhoOf prob s.p (doglegStep s.trustregion (cauchyOf prob s.p) gn) ∧
          s.trustregion < nrm gn then
        Except.ok
          (⟨s.p + doglegStep s.trustregion (cauchyOf prob s.p) gn, lam,
            P.upFactor * s.trustregion⟩, true,
            decide (solverConverged P prob
              (s.p + doglegStep s.trustregion (cauchyOf prob s.p) gn)
              (doglegStep s.trustregion (cauchyOf prob s.p) gn)
              (P.upFactor * s.trustregion)))
      else
        Except.ok
          (⟨s.p + doglegStep s.trustregion (cauchyOf prob s.p) gn, lam,
            s.trustregion⟩, true,
            decide (solverConverged P prob
              (s.p + doglegStep s.trustregion (cauchyOf prob s.p) gn)
              (doglegStep s.trustregion (cauchyOf prob s.p) gn)
              s.trustregion))) := by
  unfold runIteration
  rw [hgn]

/-- `runIteration` fails exactly when the Gauss-Newton retry loop fails. -/
theorem runIteration_of_gn_fail {ns nm : ℕ} (P : DoglegParameters)
    (be : LinearBackend ns) (prob : DoglegProblem ns nm) (s : IterState ns)
    (hgn : gnResult P be prob s = none) :
    runIteration P be prob s = Except.error DoglegError.fatalFactorization := by
  unfold runIteration
  rw [hgn]

theorem escalateLambda_gt (l : ℝ) (hl : 0 ≤ l) : l < escalateLambda l := by
  unfold escalateLambda
  split_ifs with h
  · rw [h]; norm_num
  · have : 0 < l := lt_of_le_of_ne hl (Ne.symm h)
    linarith

theorem computeGN_lambda_mono {ns : ℕ} (be : LinearBackend ns)
    (JtJ : Matrix (Fin ns) (Fin ns) ℝ) (g : Fin ns → ℝ) :
    ∀ (k : ℕ) (l : ℝ) (gn : Fin ns → ℝ) (lam : ℝ), 0 ≤ l →
      computeGN be JtJ g k l = some (gn, lam) → l ≤ lam ∧ 0 ≤ lam := by
  intro k
  induction k with
  | zero => intro l gn lam _ h; exact absurd h (by simp [computeGN])
  | succ k ih =>
    intro l gn lam hl h
    unfold computeGN at h
    split_ifs at h with hfac
    · have h2 : lam = l := by
        simp only [Option.some.injEq, Prod.mk.injEq] at h
        exact h.2.symm
      subst h2
      exact ⟨le_rfl, hl⟩
    · have hesc := escalateLambda_gt l hl
      have h3 := ih (escalateLambda l) gn lam (by linarith) h
      exact ⟨le_trans hesc.le h3.1, h3.2⟩

theorem runIteration_lambda {ns nm : ℕ} (P : DoglegParameters)
    (be : LinearBackend ns) (prob : DoglegProblem ns nm) (s s1 : IterState ns)
    (a c : Bool) (hl : 0 ≤ s.lambda)
    (h : runIteration P be prob s = Except.ok (s1, a, c)) :
    s.lambda ≤ s1.lambda ∧ 0 ≤ s1.lambda := by
  cases hgn : gnResult P be prob s with
  | none =>
    rw [runIteration_of_gn_fail P be prob s hgn] at h
    exact absurd h (by simp)
  | some r =>
    obtain ⟨gn, lam⟩ := r
    have hmono := computeGN_lambda_mono be (JtJOf prob s.p) (gradOf prob s.p)
      P.factorizationRetries s.lambda gn lam hl hgn
    rw [runIteration_of_gn P be prob s gn lam hgn] at h
    split_ifs at h <;>
      (simp only [Except.ok.injEq, Prod.mk.injEq] at h
       have hs1 : s1.lambda = lam := by rw [← h.1]
       rw [hs1]
       exact hmono)

theorem runLoop_lambda {ns nm : ℕ} (P : DoglegParameters)
    (be : LinearBackend ns) (prob : DoglegProblem ns nm) :
    ∀ (fuel : ℕ) (s : IterState ns) (r : IterState ns × Bool × ℕ),
      0 ≤ s.lambda → runLoop P be prob fuel s = Except.ok r →
      s.lambda ≤ r.1.lambda := by
  intro fuel
  induction fuel with
  | zero =>
    intro s r hl h
    simp only [runLoop, Except.ok.injEq] at h
    rw [← h]
  | succ k ih =>
    intro s r hl h
    unfold runLoop at h
    cases hit : runIteration P be prob s with
    | error e => rw [hit] at h; exact absurd h (by simp)
    | ok t =>
      obtain ⟨s1, a, conv⟩ := t
      rw [hit] at h
      have hl1 := runIteration_lambda P be prob s s1 a conv hl hit
      by_cases hconv : conv = true
      · rw [hconv] at h
        simp only [if_true] at h
        simp only [Except.ok.injEq] at h
        have : r.1 = s1 := by rw [← h]
        rw [this]
        exact hl1.1
      · have hconv2 : conv = false := by
          cases conv
          · rfl
          · exact absurd rfl hconv
        rw [hconv2] at h
        simp only [Bool.false_eq_true, if_false] at h
        cases hrec : runLoop P be prob k s1 with
        | error e => rw [hrec] at h; exact absurd h (by simp)
        | ok t2 =>
          obtain ⟨s2, c2, cnt⟩ := t2
          rw [hrec] at h
          simp only [Except.ok.injEq] at h
          have h2 := ih s1 (s2, c2, cnt) hl1.2 hrec
          have : r.1 = s2 := by rw [← h]
          rw [this]
          exact le_trans hl1.1 h2

/-- C5: the regularization constant starts at 0, every escalation strictly
increases it (an escalation happens exactly when a factorization attempt
reveals a non-positive-definite matrix), and across any run of the
controller loop it is monotonically non-decreasing, never reset. -/
theorem lambda_ratchet {ns nm : ℕ} (P : DoglegParameters)
    (be : LinearBackend ns) (prob : DoglegProblem ns nm) :
    (∀ p0 : Fin ns → ℝ, (initState P p0).lambda = 0) ∧
    (∀ l : ℝ, 0 ≤ l → l < escalateLambda l) ∧
    (∀ (JtJ : Matrix (Fin ns) (Fin ns) ℝ) (g : Fin ns → ℝ) (k : ℕ) (l : ℝ),
      be.factorable JtJ l = false →
      computeGN be JtJ g (k + 1) l = computeGN be JtJ g k (escalateLambda l)) ∧
    (∀ (fuel : ℕ) (s : IterState ns) (r : IterState ns × Bool × ℕ),
      0 ≤ s.lambda → runLoop P be prob fuel s = Except.ok r →
      s.lambda ≤ r.1.lambda) := by
  refine ⟨fun p0 => rfl, escalateLambda_gt, fun JtJ g k l hfac => ?_,
    runLoop_lambda P be prob⟩
  unfold computeGN
  rw [if_neg (by rw [hfac]; exact Bool.false_ne_true)]
  cases k <;> rfl

/-- C3: `dogleg_optimize` is total up to the single fatal-factorization
failure mode (the `void`-returning callback has no failure channel); in
every other case it returns the objective value `norm2_x` evaluated at the
returned final state vector. -/
theorem optimize_result {ns nm : ℕ} (P : DoglegParameters)
    (be : LinearBackend ns) (prob : DoglegProblem ns nm) (p0 : Fin ns → ℝ) :
    dogleg_optimize P be prob p0 = Except.error DoglegError.fatalFactorization ∨
    ∃ (cost : ℝ) (pf : Fin ns → ℝ) (conv : Bool),
      dogleg_optimize P be prob p0 = Except.ok (cost, pf, conv) ∧
      cost = norm2 (prob.f pf) := by
  unfold dogleg_optimize
  cases h : runLoop P be prob P.maxIterations (initState P p0) with
  | error e =>
    left
    cases e
    rfl
  | ok r =>
    obtain ⟨s, conv, cnt⟩ := r
    right
    exact ⟨norm2 (prob.f s.p), s.p, conv, rfl, rfl⟩

/-- C4: each termination criterion is enabled exactly when its threshold is
positive — positive threshold means the criterion is the componentwise
(resp. radius) bound, non-positive threshold disables it outright — and the
controller never reports convergence on a rejected candidate (the checks run
on the accepted point only). -/
theorem convergence_thresholds {ns nm : ℕ} :
    (∀ (th : ℝ) (g : Fin ns → ℝ), th ≤ 0 → ¬ gradientConverged th g) ∧
    (∀ (th : ℝ) (g : Fin ns → ℝ), 0 < th →
      (gradientConverged th g ↔ ∀ i, |g i| < th)) ∧
    (∀ (th : ℝ) (u : Fin ns → ℝ), th ≤ 0 → ¬ updateConverged th u) ∧
    (∀ (th : ℝ) (u : Fin ns → ℝ), 0 < th →
      (updateConverged th u ↔ ∀ i, |u i| < th)) ∧
    (∀ th delta : ℝ, th ≤ 0 → ¬ trustregionConverged th delta) ∧
    (∀ th delta : ℝ, 0 < th → (trustregionConverged th delta ↔ delta < th)) ∧
    (∀ (P : DoglegParameters) (be : LinearBackend ns)
      (prob : DoglegProblem ns nm) (s s1 : IterState ns) (c : Bool),
      runIteration P be prob s = Except.ok (s1, false, c) → c = false) := by
  refine ⟨fun th g hth h => absurd h.1 (not_lt.mpr hth),
    fun th g hth => ⟨fun h => h.2, fun h => ⟨hth, h⟩⟩,
    fun th u hth h => absurd h.1 (not_lt.mpr hth),
    fun th u hth => ⟨fun h => h.2, fun h => ⟨hth, h⟩⟩,
    fun th delta hth h => absurd h.1 (not_lt.mpr hth),
    fun th delta hth => ⟨fun h => h.2, fun h => ⟨hth, h⟩⟩,
    fun P be prob s s1 c h => ?_⟩
  cases hgn : gnResult P be prob s with
  | none =>
    rw [runIteration_of_gn_fail P be prob s hgn] at h
    exact absurd h (by simp)
  | some r =>
    obtain ⟨gn, lam⟩ := r
    rw [runIteration_of_gn P be prob s gn lam hgn] at h
    split_ifs at h <;> simp only [Except.ok.injEq, Prod.mk.injEq] at h
    · exact h.2.2.symm
    · exact absurd h.2.1 (by simp)
    · exact absurd h.2.1 (by simp)

/-- C6: rejection (`ρ < downThreshold`) shrinks the radius by `downFactor`
and keeps the current point; the radius grows by `upFactor` exactly when
`ρ > upThreshold` and the step saturated the boundary; any other accepted
step leaves the radius unchanged. -/
theorem trustregion_update_policy {ns nm : ℕ} (P : DoglegParameters)
    (be : LinearBackend ns) (prob : DoglegProblem ns nm) (s : IterState ns)
    (gn : Fin ns → ℝ) (lam : ℝ)
    (hgn : gnResult P be prob s = some (gn, lam)) :
    (rhoOf prob s.p (doglegStep s.trustregion (cauchyOf prob s.p) gn) <
        P.downThreshold →
      runIteration P be prob s =
        Except.ok (⟨s.p, lam, P.downFactor * s.trustregion⟩, false, false)) ∧
    (¬ rhoOf prob s.p (doglegStep s.trustregion (cauchyOf prob s.p) gn) <
        P.downThreshold →
      P.upThreshold < rhoOf prob s.p (doglegStep s.trustregion (cauchyOf prob s.p) gn) →
      didStepToEdge s.trustregion gn →
      runIteration P be prob s =
        Except.ok (⟨s.p + doglegStep s.trustregion (cauchyOf prob s.p) gn, lam,
          P.upFactor * s.trustregion⟩, true,
          decide (solverConverged P prob
            (s.p + doglegStep s.trustregion (cauchyOf prob s.p) gn)
            (doglegStep s.trustregion (cauchyOf prob s.p) gn)
            (P.upFactor * s.trustregion)))) ∧
    (¬ rhoOf prob s.p (doglegStep s.trustregion (cauchyOf prob s.p) gn) <
        P.downThreshold →
      ¬ (P.upThreshold < rhoOf prob s.p (doglegStep s.trustregion (cauchyOf prob s.p) gn) ∧
          didStepToEdge s.trustregion gn) →
      runIteration P be prob s =
        Except.ok (⟨s.p + doglegStep s.trustregion (cauchyOf prob s.p) gn, lam,
          s.trustregion⟩, true,
          decide (solverConverged P prob
            (s.p + doglegStep s.trustregion (cauchyOf prob s.p) gn)
            (doglegStep s.trustregion (cauchyOf prob s.p) gn)
            s.trustregion))) := by
  rw [runIteration_of_gn P be prob s gn lam hgn]
  unfold didStepToEdge
  refine ⟨fun h1 => ?_, fun h1 h2 h3 => ?_, fun h1 h2 => ?_⟩
  · rw [if_pos h1]
  · rw [if_neg h1, if_pos ⟨h2, h3⟩]
  · rw [if_neg h1, if_neg h2]

/-- C7: whenever the controller accepts a candidate step (given the
default-style configuration `downThreshold ≥ 0` and a positive predicted
model reduction at the attempted step), the accepted point's objective value
`norm2_x` is no greater than that of the point it replaces. -/
theorem accepted_step_no_increase {ns nm : ℕ} (P : DoglegParameters)
    (be : LinearBackend ns) (prob : DoglegProblem ns nm) (s s1 : IterState ns)
    (gn : Fin ns → ℝ) (lam : ℝ) (c : Bool)
    (hgn : gnResult P be prob s = some (gn, lam))
    (hd : 0 ≤ P.downThreshold)
    (hpred : 0 < predictedReduction prob s.p
      (doglegStep s.trustregion (cauchyOf prob s.p) gn))
    (hacc : runIteration P be prob s = Except.ok (s1, true, c)) :
    norm2 (prob.f s1.p) ≤ norm2 (prob.f s.p) := by
  rw [runIteration_of_gn P be prob s gn lam hgn] at hacc
  have main : ∀ h1 : ¬ rhoOf prob s.p (doglegStep s.trustregion (cauchyOf prob s.p) gn) <
      P.downThreshold,
      s1.p = s.p + doglegStep s.trustregion (cauchyOf prob s.p) gn →
      norm2 (prob.f s1.p) ≤ norm2 (prob.f s.p) := by
    intro h1 hs1p
    have hρ : 0 ≤ rhoOf prob s.p (doglegStep s.trustregion (cauchyOf prob s.p) gn) :=
      le_trans hd (not_lt.mp h1)
    have hnum : 0 ≤ norm2 (prob.f s.p) -
        norm2 (prob.f (s.p + doglegStep s.trustregion (cauchyOf prob s.p) gn)) := by
      have h5 : norm2 (prob.f s.p) -
          norm2 (prob.f (s.p + doglegStep s.trustregion (cauchyOf prob s.p) gn)) =
          rhoOf prob s.p (doglegStep s.trustregion (cauchyOf prob s.p) gn) *
          predictedReduction prob s.p
            (doglegStep s.trustregion (cauchyOf prob s.p) gn) := by
        unfold rhoOf
        rw [div_mul_cancel₀ _ (ne_of_gt hpred)]
      rw [h5]
      exact mul_nonneg hρ hpred.le
    rw [hs1p]
    linarith
  split_ifs at hacc with h1 h2
  · simp only [Except.ok.injEq, Prod.mk.injEq] at hacc
    exact absurd hacc.2.1 (by simp)
  · simp only [Except.ok.injEq, Prod.mk.injEq] at hacc
    exact main h1 (by rw [← hacc.1])
  · simp only [Except.ok.injEq, Prod.mk.injEq] at hacc
    exact main h1 (by rw [← hacc.1])

theorem runIteration_progress {ns nm : ℕ} (P : DoglegParameters)
    (be : LinearBackend ns) (prob : DoglegProblem ns nm) (s s1 : IterState ns)
    (a c : Bool)
    (hd : 0 < P.downThreshold)
    (hpred : ∀ (gn : Fin ns → ℝ) (lam : ℝ), gnResult P be prob s = some (gn, lam) →
      0 ≤ predictedReduction prob s.p
        (doglegStep s.trustregion (cauchyOf prob s.p) gn))
    (h : runIteration P be prob s = Except.ok (s1, a, c)) :
    norm2 (prob.f s1.p) ≤ norm2 (prob.f s.p) ∧ (a = false → s1.p = s.p) := by
  cases hgn : gnResult P be prob s with
  | none =>
    rw [runIteration_of_gn_fail P be prob s hgn] at h
    exact absurd h (by simp)
  | some r =>
    obtain ⟨gn, lam⟩ := r
    have hpred2 := hpred gn lam hgn
    have haccept : ∀ h1 : ¬ rhoOf prob s.p
        (doglegStep s.trustregion (cauchyOf prob s.p) gn) < P.downThreshold,
        norm2 (prob.f (s.p + doglegStep s.trustregion (cauchyOf prob s.p) gn)) ≤
          norm2 (prob.f s.p) := by
      intro h1
      have hρ : P.downThreshold ≤
          rhoOf prob s.p (doglegStep s.trustregion (cauchyOf prob s.p) gn) :=
        not_lt.mp h1
      have hpredpos : 0 < predictedReduction prob s.p
          (doglegStep s.trustregion (cauchyOf prob s.p) gn) := by
        rcases lt_or_eq_of_le hpred2 with hp | hp
        · exact hp
        · exfalso
          have hρ0 : rhoOf prob s.p
              (doglegStep s.trustregion (cauchyOf prob s.p) gn) = 0 := by
            unfold rhoOf
            rw [← hp, div_zero]
          rw [hρ0] at hρ
          linarith
      have h5 : norm2 (prob.f s.p) -
          norm2 (prob.f (s.p + doglegStep s.trustregion (cauchyOf prob s.p) gn)) =
          rhoOf prob s.p (doglegStep s.trustregion (cauchyOf prob s.p) gn) *
          predictedReduction prob s.p
            (doglegStep s.trustregion (cauchyOf prob s.p) gn) := by
        unfold rhoOf
        rw [div_mul_cancel₀ _ (ne_of_gt hpredpos)]
      nlinarith [hpredpos]
    rw [runIteration_of_gn P be prob s gn lam hgn] at h
    split_ifs at h with h1 h2
    · simp only [Except.ok.injEq, Prod.mk.injEq] at h
      refine ⟨?_, fun _ => by rw [← h.1]⟩
      have : s1.p = s.p := by rw [← h.1]
      rw [this]
    · simp only [Except.ok.injEq, Prod.mk.injEq] at h
      refine ⟨?_, fun ha => absurd (h.2.1.trans ha) (by simp)⟩
      have : s1.p = s.p + doglegStep s.trustregion (cauchyOf prob s.p) gn := by
        rw [← h.1]
      rw [this]
      exact haccept h1
    · simp only [Except.ok.injEq, Prod.mk.injEq] at h
      refine ⟨?_, fun ha => absurd (h.2.1.trans ha) (by simp)⟩
      have : s1.p = s.p + doglegStep s.trustregion (cauchyOf prob s.p) gn := by
        rw [← h.1]
      rw [this]
      exact haccept h1

theorem runLoop_progress {ns nm : ℕ} (P : DoglegParameters)
    (be : LinearBackend ns) (prob : DoglegProblem ns nm)
    (hd : 0 < P.downThreshold)
    (hpred : ∀ s : IterState ns, ∀ (gn : Fin ns → ℝ) (lam : ℝ),
      gnResult P be prob s = some (gn, lam) →
      0 ≤ predictedReduction prob s.p
        (doglegStep s.trustregion (cauchyOf prob s.p) gn)) :
    ∀ (fuel : ℕ) (s s2 : IterState ns) (c2 : Bool) (cnt : ℕ),
      runLoop P be prob fuel s = Except.ok (s2, c2, cnt) →
      norm2 (prob.f s2.p) ≤ norm2 (prob.f s.p) ∧ (cnt = 0 → s2.p = s.p) := by
  intro fuel
  induction fuel with
  | zero =>
    intro s s2 c2 cnt h
    simp only [runLoop, Except.ok.injEq, Prod.mk.injEq] at h
    refine ⟨?_, fun _ => by rw [← h.1]⟩
    have : s2 = s := h.1.symm
    rw [this]
  | succ k ih =>
    intro s s2 c2 cnt h
    unfold runLoop at h
    cases hit : runIteration P be prob s with
    | error e => rw [hit] at h; exact absurd h (by simp)
    | ok t =>
      obtain ⟨s1, a, conv⟩ := t
      rw [hit] at h
      have hprog := runIteration_progress P be prob s s1 a conv hd
        (hpred s) hit
      by_cases hconv : conv = true
      · rw [hconv] at h
        simp only [if_true, Except.ok.injEq, Prod.mk.injEq] at h
        have hs2 : s2 = s1 := h.1.symm
        refine ⟨by rw [hs2]; exact hprog.1, fun hcnt => ?_⟩
        have hcnt2 : (if a = true then 1 else 0) = cnt := h.2.2
        rw [← hcnt2] at hcnt
        have ha : a = false := by
          by_cases haa : a = true
          · rw [haa] at hcnt; simp at hcnt
          · cases a
            · rfl
            · exact absurd rfl haa
        rw [hs2]
        exact hprog.2 ha
      · have hconv2 : conv = false := by
          cases conv
          · rfl
          · exact absurd rfl hconv
        rw [hconv2] at h
        simp only [Bool.false_eq_true, if_false] at h
        cases hrec : runLoop P be prob k s1 with
        | error e => rw [hrec] at h; exact absurd h (by simp)
        | ok t2 =>
          obtain ⟨s3, c3, cnt3⟩ := t2
          rw [hrec] at h
          simp only [Except.ok.injEq, Prod.mk.injEq] at h
          have hrec2 := ih s1 s3 c3 cnt3 hrec
          have hs2 : s2 = s3 := h.1.symm
          refine ⟨?_, fun hcnt => ?_⟩
          · rw [hs2]
            exact le_trans hrec2.1 hprog.1
          · have hcnt2 : cnt3 + (if a = true then 1 else 0) = cnt := h.2.2
            rw [← hcnt2] at hcnt
            have hcnt3 : cnt3 = 0 ∧ (if a = true then 1 else 0) = 0 := by
              constructor <;> omega
            have ha : a = false := by
              by_cases haa : a = true
              · rw [haa] at hcnt3; simp at hcnt3
              · cases a
                · rfl
                · exact absurd rfl haa
            rw [hs2, hrec2.2 hcnt3.1]
            exact hprog.2 ha

/-- C9: on a successful solve the caller's `p` buffer receives exactly the
loop's final point, whose objective is never worse than the initial
estimate's, and which is the initial estimate itself when zero candidate
steps were accepted (under `downThreshold > 0` and a nonnegative predicted
model reduction at every attempted step). -/
theorem optimize_best_point {ns nm : ℕ} (P : DoglegParameters)
    (be : LinearBackend ns) (prob : DoglegProblem ns nm) (p0 : Fin ns → ℝ)
    (s2 : IterState ns) (c2 : Bool) (cnt : ℕ)
    (hd : 0 < P.downThreshold)
    (hpred : ∀ s : IterState ns, ∀ (gn : Fin ns → ℝ) (lam : ℝ),
      gnResult P be prob s = some (gn, lam) →
      0 ≤ predictedReduction prob s.p
        (doglegStep s.trustregion (cauchyOf prob s.p) gn))
    (hrun : runLoop P be prob P.maxIterations (initState P p0) =
      Except.ok (s2, c2, cnt)) :
    dogleg_optimize P be prob p0 = Except.ok (norm2 (prob.f s2.p), s2.p, c2) ∧
    norm2 (prob.f s2.p) ≤ norm2 (prob.f p0) ∧
    (cnt = 0 → s2.p = p0) := by
  have hprog := runLoop_progress P be prob hd hpred P.maxIterations
    (initState P p0) s2 c2 cnt hrun
  refine ⟨?_, hprog.1, hprog.2⟩
  unfold dogleg_optimize
  rw [hrun]

/-- C10: a freshly evaluated operating point starts with both cache flags
cleared (the Jacobian just changed) and trivially satisfies the cache
coherence invariant; filling either cached update vector establishes its
flag and preserves the invariant, so every reachable operating point with a
set flag caches exactly the step derived from its current Jacobian and
gradient, with `_lensq` its squared norm. -/
theorem operatingPoint_cache_coherent {ns nm : ℕ} (be : LinearBackend ns)
    (lam : ℝ) :
    (∀ (prob : DoglegProblem ns nm) (p : Fin ns → ℝ),
      (makeOperatingPoint prob p).updateCauchy_valid = false ∧
      (makeOperatingPoint prob p).updateGN_valid = false ∧
      cacheInvariant be lam (makeOperatingPoint prob p)) ∧
    (∀ pt : OperatingPoint ns nm, cacheInvariant be lam pt →
      cacheInvariant be lam (fillCauchy pt) ∧
      (fillCauchy pt).updateCauchy_valid = true ∧
      (fillCauchy pt).J = pt.J ∧ (fillCauchy pt).x = pt.x) ∧
    (∀ pt : OperatingPoint ns nm, cacheInvariant be lam pt →
      cacheInvariant be lam (fillGN be lam pt) ∧
      (fillGN be lam pt).updateGN_valid = true ∧
      (fillGN be lam pt).J = pt.J ∧ (fillGN be lam pt).Jt_x = pt.Jt_x) := by
  refine ⟨fun prob p => ⟨rfl, rfl, ?_⟩, fun pt hinv => ?_, fun pt hinv => ?_⟩
  · constructor
    · intro h; exact absurd h (by simp [makeOperatingPoint])
    · intro h; exact absurd h (by simp [makeOperatingPoint])
  · unfold fillCauchy
    split_ifs with h
    · exact ⟨hinv, h, rfl, rfl⟩
    · refine ⟨⟨fun _ => ⟨rfl, rfl⟩, fun hgn => ?_⟩, rfl, rfl, rfl⟩
      exact hinv.2 hgn
  · unfold fillGN
    split_ifs with h
    · exact ⟨hinv, h, rfl, rfl⟩
    · refine ⟨⟨fun hca => ?_, fun _ => ⟨rfl, rfl⟩⟩, rfl, rfl, rfl⟩
      exact hinv.1 hca

/-! Concrete one-dimensional instances used to witness the theorems above. -/

def vOne : Fin 1 → ℝ := fun _ => 1

def vTwo : Fin 1 → ℝ := fun _ => 2

noncomputable def vHalf : Fin 1 → ℝ := fun _ => 1 / 2

/-- The identity test problem `x(p) = p` with identity Jacobian. -/
def idProblem : DoglegProblem 1 1 := ⟨fun p => p, fun _ => 1⟩

/-- A degenerate test problem whose reported Jacobian is zero. -/
def zeroProblem : DoglegProblem 1 1 := ⟨fun p => p, fun _ => 0⟩

/-- A backend whose factorization always succeeds and whose solver returns
`-g` (exact for `JtJ = I`, `lambda = 0`). -/
def negBackend : LinearBackend 1 := ⟨fun _ _ => true, fun _ _ g => -g⟩

/-- A backend whose factorization always fails. -/
def failBackend : LinearBackend 1 := ⟨fun _ _ => false, fun _ _ g => g⟩

noncomputable def paramsA : DoglegParameters :=
  ⟨50, 10, 1 / 10, 1 / 4, 2, 3 / 4, 10, 0, 0, 0⟩

noncomputable def paramsB : DoglegParameters :=
  ⟨50, 10, 1 / 10, 2, 2, 3 / 4, 10, 0, 0, 0⟩

noncomputable def paramsC : DoglegParameters :=
  ⟨50, 10, 1 / 10, 1 / 4, 2, 3 / 4, 1 / 2, 0, 0, 0⟩

noncomputable def paramsD : DoglegParameters :=
  ⟨1, 10, 1 / 10, 2, 2, 3 / 4, 10, 0, 0, 0⟩

def stateA : IterState 1 := ⟨vOne, 0, 10⟩

noncomputable def stateC : IterState 1 := ⟨vOne, 0, 1 / 2⟩

theorem norm2_single (x : ℝ) : norm2 (fun _ : Fin 1 => x) = x * x := by
  unfold norm2 dot
  rw [Fin.sum_univ_one]

theorem nrm_single (x : ℝ) : nrm (fun _ : Fin 1 => x) = |x| := by
  unfold nrm
  rw [norm2_single]
  exact Real.sqrt_mul_self_eq_abs x

theorem norm2_zero_vec {n : ℕ} : norm2 (0 : Fin n → ℝ) = 0 :=
  (norm2_eq_zero_iff 0).mpr rfl

theorem nrm_zero_vec {n : ℕ} : nrm (0 : Fin n → ℝ) = 0 := by
  unfold nrm
  rw [norm2_zero_vec, Real.sqrt_zero]

theorem neg_vOne_eq : -vOne = fun _ : Fin 1 => (-1 : ℝ) := by
  funext i
  simp [vOne]

theorem nrm_neg_vOne : nrm (-vOne) = 1 := by
  rw [neg_vOne_eq, nrm_single]
  norm_num

theorem norm2_vOne : norm2 vOne = 1 := by
  unfold vOne
  rw [norm2_single]
  norm_num

theorem nrm_vTwo : nrm vTwo = 2 := by
  unfold vTwo
  rw [nrm_single]
  norm_num

theorem gradOf_id (p : Fin 1 → ℝ) : gradOf idProblem p = p := by
  show Matrix.mulVec (1 : Matrix (Fin 1) (Fin 1) ℝ).transpose p = p
  rw [Matrix.transpose_one, Matrix.one_mulVec]

theorem gradOf_zeroProblem (p : Fin 1 → ℝ) : gradOf zeroProblem p = 0 := by
  show Matrix.mulVec (0 : Matrix (Fin 1) (Fin 1) ℝ).transpose p = 0
  rw [Matrix.transpose_zero, Matrix.zero_mulVec]

theorem cauchyOf_id_vOne : cauchyOf idProblem vOne = -vOne := by
  show cauchyStep (1 : Matrix (Fin 1) (Fin 1) ℝ) vOne = -vOne
  unfold cauchyStep
  simp only [Matrix.transpose_one, Matrix.one_mulVec, norm2_vOne]
  norm_num

theorem cauchyOf_zeroProblem (p : Fin 1 → ℝ) : cauchyOf zeroProblem p = 0 := by
  show cauchyStep (0 : Matrix (Fin 1) (Fin 1) ℝ) p = 0
  unfold cauchyStep
  simp only [Matrix.transpose_zero, Matrix.zero_mulVec, smul_zero]

theorem computeGN_succ {ns : ℕ} (be : LinearBackend ns)
    (JtJ : Matrix (Fin ns) (Fin ns) ℝ) (g : Fin ns → ℝ) (k : ℕ) (l : ℝ)
    (h : be.factorable JtJ l = true) :
    computeGN be JtJ g (k + 1) l = some (be.solveGN JtJ l g, l) := by
  unfold computeGN
  rw [if_pos h]

theorem gnResult_negBackend (P : DoglegParameters) (prob : DoglegProblem 1 1)
    (s : IterState 1) (k : ℕ) (hk : P.factorizationRetries = k + 1) :
    gnResult P negBackend prob s = some (-(gradOf prob s.p), s.lambda) := by
  unfold gnResult
  rw [hk, computeGN_succ negBackend _ _ k s.lambda rfl]
  rfl

theorem gnA : gnResult paramsA negBackend idProblem stateA = some (-vOne, 0) := by
  rw [gnResult_negBackend paramsA idProblem stateA 9 rfl, gradOf_id]
  rfl

theorem gnB : gnResult paramsB negBackend idProblem stateA = some (-vOne, 0) := by
  rw [gnResult_negBackend paramsB idProblem stateA 9 rfl, gradOf_id]
  rfl

theorem gnC : gnResult paramsC negBackend idProblem stateC = some (-vOne, 0) := by
  rw [gnResult_negBackend paramsC idProblem stateC 9 rfl, gradOf_id]
  rfl

theorem solverConverged_disabled {ns nm : ℕ} (P : DoglegParameters)
    (prob : DoglegProblem ns nm) (p step : Fin ns → ℝ) (delta : ℝ)
    (h1 : P.thresh_Jt_x ≤ 0) (h2 : P.thresh_update ≤ 0)
    (h3 : P.thresh_trustregion ≤ 0) :
    ¬ solverConverged P prob p step delta := by
  rintro (⟨h, -⟩ | ⟨h, -⟩ | ⟨h, -⟩) <;> linarith

theorem stepA : doglegStep (10 : ℝ) (-vOne) (-vOne) = -vOne := by
  unfold doglegStep
  rw [if_pos (by rw [nrm_neg_vOne]; norm_num : nrm (-vOne) ≤ (10:ℝ))]

theorem stepC : doglegStep (1 / 2 : ℝ) (-vOne) (-vOne) = -vHalf := by
  unfold doglegStep
  rw [if_neg (by rw [nrm_neg_vOne]; norm_num : ¬ nrm (-vOne) ≤ (1/2:ℝ)),
    if_pos (by rw [nrm_neg_vOne]; norm_num : (1/2:ℝ) ≤ nrm (-vOne)),
    nrm_neg_vOne]
  funext i
  simp [vOne, vHalf]

theorem idProblem_f (p : Fin 1 → ℝ) : idProblem.f p = p := rfl

theorem idProblem_Jf (p : Fin 1 → ℝ) : idProblem.Jf p = 1 := rfl

theorem predA : predictedReduction idProblem vOne (-vOne) = 1 := by
  unfold predictedReduction
  rw [idProblem_f, idProblem_Jf, Matrix.one_mulVec, add_neg_cancel,
    norm2_zero_vec, norm2_vOne]
  norm_num

theorem rhoA : rhoOf idProblem vOne (-vOne) = 1 := by
  unfold rhoOf
  rw [predA, idProblem_f, idProblem_f, add_neg_cancel, norm2_zero_vec, norm2_vOne]
  norm_num

theorem vOne_add_neg_vHalf : vOne + -vHalf = vHalf := by
  funext i
  simp [vOne, vHalf]
  norm_num

theorem norm2_vHalf : norm2 vHalf = 1 / 4 := by
  unfold vHalf
  rw [norm2_single]
  norm_num

theorem predC : predictedReduction idProblem vOne (-vHalf) = 3 / 4 := by
  unfold predictedReduction
  rw [idProblem_f, idProblem_Jf, Matrix.one_mulVec,
    vOne_add_neg_vHalf, norm2_vHalf, norm2_vOne]
  norm_num

theorem rhoC : rhoOf idProblem vOne (-vHalf) = 1 := by
  unfold rhoOf
  rw [predC, idProblem_f, idProblem_f, vOne_add_neg_vHalf, norm2_vHalf, norm2_vOne]
  norm_num

theorem stepAfull :
    doglegStep stateA.trustregion (cauchyOf idProblem stateA.p) (-vOne) = -vOne := by
  rw [show stateA.p = vOne from rfl, show stateA.trustregion = (10:ℝ) from rfl,
    cauchyOf_id_vOne, stepA]

theorem stepCfull :
    doglegStep stateC.trustregion (cauchyOf idProblem stateC.p) (-vOne) = -vHalf := by
  rw [show stateC.p = vOne from rfl, show stateC.trustregion = (1/2:ℝ) from rfl,
    cauchyOf_id_vOne, stepC]

theorem rhoAfull :
    rhoOf idProblem stateA.p (doglegStep stateA.trustregion
      (cauchyOf idProblem stateA.p) (-vOne)) = 1 := by
  rw [stepAfull, show stateA.p = vOne from rfl, rhoA]

theorem rhoCfull :
    rhoOf idProblem stateC.p (doglegStep stateC.trustregion
      (cauchyOf idProblem stateC.p) (-vOne)) = 1 := by
  rw [stepCfull, show stateC.p = vOne from rfl, rhoC]

theorem runIterA : runIteration paramsA negBackend idProblem stateA =
    Except.ok (⟨(0 : Fin 1 → ℝ), 0, 10⟩, true, false) := by
  rw [runIteration_of_gn paramsA negBackend idProblem stateA (-vOne) 0 gnA,
    rhoAfull, stepAfull]
  rw [if_neg (by norm_num [paramsA] : ¬ (1:ℝ) < paramsA.downThreshold)]
  rw [if_neg (fun hcon => by
    obtain ⟨-, hh⟩ := hcon
    rw [show stateA.trustregion = (10:ℝ) from rfl, nrm_neg_vOne] at hh
    norm_num at hh)]
  have hadd : stateA.p + -vOne = (0 : Fin 1 → ℝ) := by
    rw [show stateA.p = vOne from rfl, add_neg_cancel]
  rw [hadd, decide_eq_false (solverConverged_disabled paramsA idProblem 0 (-vOne)
    stateA.trustregion (by norm_num [paramsA]) (by norm_num [paramsA])
    (by norm_num [paramsA]))]
  rfl

theorem runIterB : runIteration paramsB negBackend idProblem stateA =
    Except.ok (⟨vOne, 0, 1⟩, false, false) := by
  rw [runIteration_of_gn paramsB negBackend idProblem stateA (-vOne) 0 gnB,
    rhoAfull]
  rw [if_pos (by norm_num [paramsB] : (1:ℝ) < paramsB.downThreshold)]
  have hΔ : paramsB.downFactor * stateA.trustregion = (1:ℝ) := by
    show (1/10 : ℝ) * 10 = 1
    norm_num
  rw [hΔ]
  rfl

theorem runIterC : runIteration paramsC negBackend idProblem stateC =
    Except.ok (⟨vHalf, 0, 1⟩, true, false) := by
  rw [runIteration_of_gn paramsC negBackend idProblem stateC (-vOne) 0 gnC,
    rhoCfull, stepCfull]
  rw [if_neg (by norm_num [paramsC] : ¬ (1:ℝ) < paramsC.downThreshold)]
  rw [if_pos (⟨by norm_num [paramsC], by
      rw [show stateC.trustregion = (1/2:ℝ) from rfl, nrm_neg_vOne]
      norm_num⟩ :
    paramsC.upThreshold < 1 ∧ stateC.trustregion < nrm (-vOne))]
  have hadd : stateC.p + -vHalf = vHalf := by
    rw [show stateC.p = vOne from rfl, vOne_add_neg_vHalf]
  have hΔ : paramsC.upFactor * stateC.trustregion = (1:ℝ) := by
    show (2 : ℝ) * (1/2) = 1
    norm_num
  rw [hadd, hΔ, decide_eq_false (solverConverged_disabled paramsC idProblem vHalf
    (-vHalf) 1 (by norm_num [paramsC]) (by norm_num [paramsC])
    (by norm_num [paramsC]))]

theorem zeroProblem_Jf (p : Fin 1 → ℝ) : zeroProblem.Jf p = 0 := rfl

theorem predZero (p step : Fin 1 → ℝ) :
    predictedReduction zeroProblem p step = 0 := by
  unfold predictedReduction
  rw [zeroProblem_Jf, Matrix.zero_mulVec, add_zero]
  ring

theorem rhoZero (p step : Fin 1 → ℝ) : rhoOf zeroProblem p step = 0 := by
  unfold rhoOf
  rw [predZero, div_zero]

theorem doglegStep_zero_gn {n : ℕ} (delta : ℝ) (hδ : 0 ≤ delta)
    (c : Fin n → ℝ) : doglegStep delta c 0 = 0 := by
  unfold doglegStep
  rw [if_pos (by rw [nrm_zero_vec]; exact hδ)]

theorem gnD : gnResult paramsD negBackend zeroProblem (initState paramsD vOne) =
    some (0, 0) := by
  rw [gnResult_negBackend paramsD zeroProblem _ 9 rfl, gradOf_zeroProblem, neg_zero]
  rfl

theorem runIterD :
    runIteration paramsD negBackend zeroProblem (initState paramsD vOne) =
    Except.ok (⟨vOne, 0, 1⟩, false, false) := by
  rw [runIteration_of_gn paramsD negBackend zeroProblem _ 0 0 gnD]
  rw [doglegStep_zero_gn _ (show (0:ℝ) ≤ (initState paramsD vOne).trustregion from
    by show (0:ℝ) ≤ 10; norm_num) _]
  rw [rhoZero]
  rw [if_pos (by norm_num [paramsD] : (0:ℝ) < paramsD.downThreshold)]
  have hΔ : paramsD.downFactor * (initState paramsD vOne).trustregion = (1:ℝ) := by
    show (1/10 : ℝ) * 10 = 1
    norm_num
  rw [hΔ]
  rfl

theorem runLoop_succ {ns nm : ℕ} (P : DoglegParameters) (be : LinearBackend ns)
    (prob : DoglegProblem ns nm) (k : ℕ) (s : IterState ns) :
    runLoop P be prob (k + 1) s =
      match runIteration P be prob s with
      | Except.error e => Except.error e
      | Except.ok (s1, accepted, conv) =>
        if conv then Except.ok (s1, true, if accepted then 1 else 0)
        else
          match runLoop P be prob k s1 with
          | Except.error e => Except.error e
          | Except.ok (s2, c2, cnt) =>
            Except.ok (s2, c2, cnt + if accepted then 1 else 0) := rfl

theorem runLoopD :
    runLoop paramsD negBackend zeroProblem paramsD.maxIterations
      (initState paramsD vOne) = Except.ok (⟨vOne, 0, 1⟩, false, 0) := by
  rw [show paramsD.maxIterations = 0 + 1 from rfl,
    runLoop_succ paramsD negBackend zeroProblem 0 (initState paramsD vOne),
    runIterD]
  rfl

/-- Witness for C1: the three dogleg cases realized at concrete inputs. -/
theorem doglegStep_cases_witness :
    doglegStep 10 (-vOne) (-vOne) = -vOne ∧
    (doglegStep (1/2) (-vOne) (-vOne) = ((1/2 : ℝ) / nrm (-vOne)) • (-vOne) ∧
      nrm (doglegStep (1/2) (-vOne) (-vOne)) = 1/2) ∧
    (doglegStep 1 (0 : Fin 1 → ℝ) vTwo =
        0 + doglegTau 1 (0 : Fin 1 → ℝ) vTwo • (vTwo - 0) ∧
      0 ≤ doglegTau 1 (0 : Fin 1 → ℝ) vTwo ∧
      doglegTau 1 (0 : Fin 1 → ℝ) vTwo ≤ 1 ∧
      nrm (doglegStep 1 (0 : Fin 1 → ℝ) vTwo) = 1) :=
  ⟨(doglegStep_cases 10 (-vOne) (-vOne) (by norm_num)).1
      (by rw [nrm_neg_vOne]; norm_num),
   (doglegStep_cases (1/2) (-vOne) (-vOne) (by norm_num)).2.1
      (by rw [nrm_neg_vOne]; norm_num) (by rw [nrm_neg_vOne]; norm_num),
   (doglegStep_cases 1 (0 : Fin 1 → ℝ) vTwo (by norm_num)).2.2
      (by rw [nrm_vTwo]; norm_num) (by rw [nrm_zero_vec]; norm_num)⟩

/-- Witness for C2: a nonzero gradient at the identity problem. -/
theorem cauchyStep_minimizes_witness :
    Jt_x (1 : Matrix (Fin 1) (Fin 1) ℝ) vOne ≠ 0 ∧
    (cauchyStep (1 : Matrix (Fin 1) (Fin 1) ℝ) vOne =
        (-(cauchyStepLen (1 : Matrix (Fin 1) (Fin 1) ℝ) vOne)) •
          Jt_x (1 : Matrix (Fin 1) (Fin 1) ℝ) vOne ∧
      ∀ t : ℝ, cauchyModel (1 : Matrix (Fin 1) (Fin 1) ℝ) vOne
          (cauchyStepLen (1 : Matrix (Fin 1) (Fin 1) ℝ) vOne) ≤
        cauchyModel (1 : Matrix (Fin 1) (Fin 1) ℝ) vOne t) := by
  have hg : Jt_x (1 : Matrix (Fin 1) (Fin 1) ℝ) vOne ≠ 0 := by
    have he : Jt_x (1 : Matrix (Fin 1) (Fin 1) ℝ) vOne = vOne := by
      unfold Jt_x
      rw [Matrix.transpose_one, Matrix.one_mulVec]
    rw [he]
    intro h
    have h0 := congrFun h 0
    simp [vOne] at h0
  exact ⟨hg, cauchyStep_minimizes (1 : Matrix (Fin 1) (Fin 1) ℝ) vOne hg⟩

/-- Witness for C4: each criterion evaluated at enabled and disabled
thresholds, and a concrete rejected iteration reporting no convergence. -/
theorem convergence_thresholds_witness :
    ¬ gradientConverged (0:ℝ) vOne ∧
    (gradientConverged (1:ℝ) (0 : Fin 1 → ℝ) ↔ ∀ i, |(0 : Fin 1 → ℝ) i| < 1) ∧
    ¬ updateConverged (0:ℝ) vOne ∧
    (updateConverged (1:ℝ) (0 : Fin 1 → ℝ) ↔ ∀ i, |(0 : Fin 1 → ℝ) i| < 1) ∧
    ¬ trustregionConverged (0:ℝ) 1 ∧
    (trustregionConverged (1:ℝ) (1/2) ↔ (1/2:ℝ) < 1) ∧
    (false : Bool) = false := by
  have h := @convergence_thresholds 1 1
  exact ⟨h.1 0 vOne le_rfl, h.2.1 1 0 one_pos, h.2.2.1 0 vOne le_rfl,
    h.2.2.2.1 1 0 one_pos, h.2.2.2.2.1 0 1 le_rfl, h.2.2.2.2.2.1 1 (1/2) one_pos,
    h.2.2.2.2.2.2 paramsB negBackend idProblem stateA ⟨vOne, 0, 1⟩ false runIterB⟩

/-- Witness for C5: concrete escalation, retry and zero-fuel loop facts. -/
theorem lambda_ratchet_witness :
    (initState paramsA vOne).lambda = 0 ∧
    (0:ℝ) < escalateLambda 0 ∧
    computeGN failBackend 1 vOne (3 + 1) 0 =
      computeGN failBackend 1 vOne 3 (escalateLambda 0) ∧
    stateA.lambda ≤ ((stateA, false, 0) : IterState 1 × Bool × ℕ).1.lambda := by
  have h := lambda_ratchet paramsA failBackend idProblem
  exact ⟨h.1 vOne, h.2.1 0 le_rfl, h.2.2.1 1 vOne 3 0 rfl,
    h.2.2.2 0 stateA (stateA, false, 0) le_rfl rfl⟩

/-- Witness for C6: a concrete rejection with shrink, a concrete
boundary-saturating acceptance with growth, and a concrete interior
acceptance leaving the radius unchanged. -/
theorem trustregion_update_policy_witness :
    runIteration paramsB negBackend idProblem stateA =
      Except.ok (⟨stateA.p, 0, paramsB.downFactor * stateA.trustregion⟩,
        false, false) ∧
    runIteration paramsC negBackend idProblem stateC =
      Except.ok (⟨stateC.p + doglegStep stateC.trustregion
          (cauchyOf idProblem stateC.p) (-vOne), 0,
        paramsC.upFactor * stateC.trustregion⟩, true,
        decide (solverConverged paramsC idProblem
          (stateC.p + doglegStep stateC.trustregion
            (cauchyOf idProblem stateC.p) (-vOne))
          (doglegStep stateC.trustregion (cauchyOf idProblem stateC.p) (-vOne))
          (paramsC.upFactor * stateC.trustregion))) ∧
    runIteration paramsA negBackend idProblem stateA =
      Except.ok (⟨stateA.p + doglegStep stateA.trustregion
          (cauchyOf idProblem stateA.p) (-vOne), 0, stateA.trustregion⟩, true,
        decide (solverConverged paramsA idProblem
          (stateA.p + doglegStep stateA.trustregion
            (cauchyOf idProblem stateA.p) (-vOne))
          (doglegStep stateA.trustregion (cauchyOf idProblem stateA.p) (-vOne))
          stateA.trustregion)) := by
  refine ⟨(trustregion_update_policy paramsB negBackend idProblem stateA
      (-vOne) 0 gnB).1 ?_,
    (trustregion_update_policy paramsC negBackend idProblem stateC
      (-vOne) 0 gnC).2.1 ?_ ?_ ?_,
    (trustregion_update_policy paramsA negBackend idProblem stateA
      (-vOne) 0 gnA).2.2 ?_ ?_⟩
  · rw [rhoAfull]
    norm_num [paramsB]
  · rw [rhoCfull]
    norm_num [paramsC]
  · rw [rhoCfull]
    norm_num [paramsC]
  · show stateC.trustregion < nrm (-vOne)
    rw [show stateC.trustregion = (1/2:ℝ) from rfl, nrm_neg_vOne]
    norm_num
  · rw [rhoAfull]
    norm_num [paramsA]
  · rintro ⟨-, hh⟩
    have hh2 : stateA.trustregion < nrm (-vOne) := hh
    rw [show stateA.trustregion = (10:ℝ) from rfl, nrm_neg_vOne] at hh2
    norm_num at hh2

/-- Witness for C7: a concrete accepted step with positive predicted
reduction does not increase the objective. -/
theorem accepted_step_no_increase_witness :
    (0:ℝ) ≤ paramsA.downThreshold ∧
    (0:ℝ) < predictedReduction idProblem stateA.p
      (doglegStep stateA.trustregion (cauchyOf idProblem stateA.p) (-vOne)) ∧
    norm2 (idProblem.f ((⟨(0 : Fin 1 → ℝ), 0, 10⟩ : IterState 1)).p) ≤
      norm2 (idProblem.f stateA.p) := by
  have hd : (0:ℝ) ≤ paramsA.downThreshold := by norm_num [paramsA]
  have hp : (0:ℝ) < predictedReduction idProblem stateA.p
      (doglegStep stateA.trustregion (cauchyOf idProblem stateA.p) (-vOne)) := by
    rw [stepAfull, show stateA.p = vOne from rfl, predA]
    norm_num
  exact ⟨hd, hp, accepted_step_no_increase paramsA negBackend idProblem stateA
    ⟨0, 0, 10⟩ (-vOne) 0 false gnA hd hp runIterA⟩

/-- Witness for C8: the amended blend-length profile at a concrete radius. -/
theorem doglegStep_length_profile_witness :
    (0:ℝ) ≤ 1/2 ∧
    (nrm (doglegStep (1/2) (-vOne) (-vOne)) = min (1/2) (nrm (-vOne)) ∧
      MonotoneOn (fun t => nrm (doglegStep t (-vOne) (-vOne))) (Set.Ici (0:ℝ)) ∧
      ContinuousOn (fun t => nrm (doglegStep t (-vOne) (-vOne))) (Set.Ici (0:ℝ)) ∧
      (nrm (-vOne) ≤ (1/2:ℝ) → doglegStep (1/2) (-vOne) (-vOne) = -vOne) ∧
      ((1/2:ℝ) ≤ nrm (-vOne) → (1/2:ℝ) < nrm (-vOne) →
        doglegStep (1/2) (-vOne) (-vOne) = ((1/2:ℝ) / nrm (-vOne)) • (-vOne))) ∧
    doglegStep (1/2) (-vOne) (-vOne) = ((1/2:ℝ) / nrm (-vOne)) • (-vOne) := by
  have h := doglegStep_length_profile (1/2) (-vOne) (-vOne) (by norm_num)
  exact ⟨by norm_num, h, h.2.2.2.2 (by rw [nrm_neg_vOne]; norm_num)
    (by rw [nrm_neg_vOne]; norm_num)⟩

/-- Witness for C9: a concrete solve whose only iteration is rejected keeps
the initial estimate in the returned buffer. -/
theorem optimize_best_point_witness :
    (0:ℝ) < paramsD.downThreshold ∧
    (dogleg_optimize paramsD negBackend zeroProblem vOne =
      Except.ok (norm2 (zeroProblem.f ((⟨vOne, 0, 1⟩ : IterState 1)).p),
        ((⟨vOne, 0, 1⟩ : IterState 1)).p, false) ∧
      norm2 (zeroProblem.f ((⟨vOne, 0, 1⟩ : IterState 1)).p) ≤
        norm2 (zeroProblem.f vOne) ∧
      ((0:ℕ) = 0 → ((⟨vOne, 0, 1⟩ : IterState 1)).p = vOne)) := by
  have hd : (0:ℝ) < paramsD.downThreshold := by norm_num [paramsD]
  have hpred : ∀ s : IterState 1, ∀ (gn : Fin 1 → ℝ) (lam : ℝ),
      gnResult paramsD negBackend zeroProblem s = some (gn, lam) →
      0 ≤ predictedReduction zeroProblem s.p
        (doglegStep s.trustregion (cauchyOf zeroProblem s.p) gn) := by
    intro s gn lam _
    rw [predZero]
  exact ⟨hd, optimize_best_point paramsD negBackend zeroProblem vOne
    ⟨vOne, 0, 1⟩ false 0 hd hpred runLoopD⟩

/-- Witness for C10: the cache invariant at a concrete fresh point and
after filling each cached vector. -/
theorem operatingPoint_cache_coherent_witness :
    ((makeOperatingPoint idProblem vOne).updateCauchy_valid = false ∧
      (makeOperatingPoint idProblem vOne).updateGN_valid = false ∧
      cacheInvariant negBackend 0 (makeOperatingPoint idProblem vOne)) ∧
    (cacheInvariant negBackend 0 (fillCauchy (makeOperatingPoint idProblem vOne)) ∧
      (fillCauchy (makeOperatingPoint idProblem vOne)).updateCauchy_valid = true) ∧
    (cacheInvariant negBackend 0
        (fillGN negBackend 0 (makeOperatingPoint idProblem vOne)) ∧
      (fillGN negBackend 0 (makeOperatingPoint idProblem vOne)).updateGN_valid =
        true) := by
  have h := @operatingPoint_cache_coherent 1 1 negBackend 0
  have h1 := h.1 idProblem vOne
  exact ⟨h1, ⟨(h.2.1 _ h1.2.2).1, (h.2.1 _ h1.2.2).2.1⟩,
    ⟨(h.2.2 _ h1.2.2).1, (h.2.2 _ h1.2.2).2.1⟩⟩

end Dogleg
